import Mathlib

/-!
Shallow embedding of the ensemble ranking engine
(`backend/app/ranking_engine.py`) of the social-stock-insights repository.

Python floats are idealised as exact arithmetic: post attributes are
rationals, and the two signals that use transcendental functions
(`math.exp`, `math.log1p`) are real-valued.  `datetime.utcnow()` is
modelled by an explicit `now` parameter (hours on a common clock), and a
post's `created_at` string by the three outcomes the code distinguishes:
missing/empty, unparseable, or parsed to a time `t` (hours on the same
clock), so that `age_hours = now - t`.  Python `dict.get` with a default
becomes `Option.getD`; Python set state becomes `Finset String`; the
stable `list.sort(key=..., reverse=True)` becomes `List.mergeSort` with
the reversed comparison, which is likewise a stable descending sort.
-/

namespace RankingEngine

/-- The `RankingStrategy` enum of the source. -/
inductive RankingStrategy where
  | balanced
  | quality_focused
  | timely
  | diverse
  | personalized
deriving DecidableEq

/-- One weight vector of the `STRATEGY_WEIGHTS` table. -/
structure Weights where
  quality : ℚ
  community : ℚ
  author : ℚ
  market : ℚ
  recency : ℚ
  diversity : ℚ
deriving DecidableEq

/-- The `balanced` row of `STRATEGY_WEIGHTS`. -/
def balanced_weights : Weights :=
  ⟨0.25, 0.20, 0.20, 0.15, 0.15, 0.05⟩

/-- The `STRATEGY_WEIGHTS` dict: four strategies have a row, `personalized`
has none (lookups for it fall back to `balanced` via `dict.get`). -/
def STRATEGY_WEIGHTS : RankingStrategy → Option Weights
  | .balanced => some balanced_weights
  | .quality_focused => some ⟨0.40, 0.10, 0.30, 0.10, 0.05, 0.05⟩
  | .timely => some ⟨0.15, 0.15, 0.10, 0.30, 0.25, 0.05⟩
  | .diverse => some ⟨0.20, 0.15, 0.15, 0.10, 0.15, 0.25⟩
  | .personalized => none

/-- Outcome of reading and parsing a post's `created_at` value: the key is
missing (or the string empty, both falsy), the string fails
`datetime.fromisoformat`, or it parses to a time `t` in hours. -/
inductive CreatedAt where
  | missing
  | unparseable
  | parsed (t : ℚ)

/-- A post record as consumed by the engine: exactly the dict keys the
engine reads, typed per the repository's data model, with `none`/`[]`
standing for an absent key. -/
structure Post where
  content : String := ""
  tickers : List String := []
  sector : Option String := none
  insight_type : Option String := none
  created_at : CreatedAt := .missing
  quality_score : Option ℚ := none
  confidence_level : Option ℚ := none
  relevance_score : Option ℚ := none
  market_alignment_score : Option ℚ := none
  author_reputation : Option ℚ := none
  historical_accuracy : Option ℚ := none
  sector_expertise_score : Option ℚ := none
  is_trending_ticker : Bool := false
  like_count : Option ℕ := none
  comment_count : Option ℕ := none
  view_count : Option ℕ := none
  key_points : List String := []
  potential_catalysts : List String := []

/-- `EnsembleRanker._compute_quality_signal`. -/
def compute_quality_signal (post : Post) : ℚ :=
  let base_score := post.quality_score.getD 0.5
  let confidence := post.confidence_level.getD 0.5
  let confidence_bonus : ℚ := if 0.8 < confidence then 0.1 else 0
  let content_length := post.content.length
  let length_bonus : ℚ := if 200 < content_length ∧ content_length < 2000 then 0.05 else 0
  let detail_bonus : ℚ := if post.key_points ≠ [] ∧ post.potential_catalysts ≠ [] then 0.05 else 0
  min 1 (base_score + confidence_bonus + length_bonus + detail_bonus)

/-- `EnsembleRanker._compute_community_signal`; `math.log1p x = log (1 + x)`. -/
noncomputable def compute_community_signal (post : Post) : ℝ :=
  let like_count := post.like_count.getD 0
  let comment_count := post.comment_count.getD 0
  let view_count := post.view_count.getD 0
  let like_score := min 1 (Real.log (1 + (like_count : ℝ)) / 5)
  let comment_score := min 1 (Real.log (1 + (comment_count : ℝ)) / 3)
  let view_score := min 1 (Real.log (1 + (view_count : ℝ)) / 10)
  like_score * 0.5 + comment_score * 0.3 + view_score * 0.2

/-- `EnsembleRanker._compute_author_signal`. -/
def compute_author_signal (post : Post) : ℚ :=
  let reputation := post.author_reputation.getD 0.5
  let historical_accuracy := post.historical_accuracy.getD 0.5
  let sector_expertise := post.sector_expertise_score.getD 0
  let expertise_bonus : ℚ := if 0.7 < sector_expertise then 0.1 else 0
  min 1 (reputation * 0.5 + historical_accuracy * 0.5 + expertise_bonus)

/-- `EnsembleRanker._compute_market_signal`. -/
def compute_market_signal (post : Post) : ℚ :=
  let alignment_score := post.market_alignment_score.getD 0.5
  let relevance_score := post.relevance_score.getD 0.5
  let trending_bonus : ℚ := if post.is_trending_ticker then 0.15 else 0
  min 1 (alignment_score * 0.5 + relevance_score * 0.5 + trending_bonus)

/-- The strategy-dependent half-life of `_compute_recency_signal`. -/
def half_life_of (strategy : RankingStrategy) : ℚ :=
  match strategy with
  | .timely => 12
  | .quality_focused => 72
  | _ => 24

/-- `EnsembleRanker._compute_recency_signal`. -/
noncomputable def compute_recency_signal
    (strategy : RankingStrategy) (now : ℚ) (post : Post) : ℝ :=
  match post.created_at with
  | .missing => 0.5
  | .unparseable => 0.5
  | .parsed t =>
    let age_hours : ℚ := now - t
    let half_life : ℚ := half_life_of strategy
    max 0.1 (Real.exp (-((age_hours : ℝ) / (half_life : ℝ))))

/-- `EnsembleRanker._compute_diversity_signal`.  Python truthiness of the
two sets becomes nonemptiness; truthiness of the sector string excludes
both `None` and the empty string. -/
def compute_diversity_signal
    (post : Post) (seen_tickers seen_sectors : Finset String) : ℚ :=
  let post_tickers := post.tickers.toFinset
  let score1 : ℚ :=
    if post_tickers ≠ ∅ ∧ seen_tickers ≠ ∅ then
      1 * (1 - ((post_tickers ∩ seen_tickers).card : ℚ) / (post_tickers.card : ℚ) * 0.5)
    else 1
  let score2 : ℚ :=
    match post.sector with
    | some s => if s ≠ "" ∧ s ∈ seen_sectors then score1 * 0.7 else score1
    | none => score1
  max 0.3 score2

/-- The six named signal scores of one post. -/
structure Signals where
  quality : ℝ
  community : ℝ
  author : ℝ
  market : ℝ
  recency : ℝ
  diversity : ℝ

/-- The `user_preferences` argument (e.g. `favorite_tickers`); accepted by
the engine but never read. -/
structure UserPreferences where
  favorite_tickers : List String := []

/-- `EnsembleRanker._compute_signals`.  The `user_preferences` parameter is
threaded exactly as in the source, where no extractor consults it. -/
noncomputable def compute_signals (strategy : RankingStrategy) (now : ℚ)
    (post : Post) (seen_tickers seen_sectors : Finset String)
    (user_preferences : Option UserPreferences) : Signals :=
  ⟨(compute_quality_signal post : ℝ),
   compute_community_signal post,
   (compute_author_signal post : ℝ),
   (compute_market_signal post : ℝ),
   compute_recency_signal strategy now post,
   (compute_diversity_signal post seen_tickers seen_sectors : ℝ)⟩

/-- `EnsembleRanker._aggregate_signals`: the weighted sum over the six
signal names, in the dict's insertion order. -/
noncomputable def aggregate_signals (w : Weights) (s : Signals) : ℝ :=
  s.quality * (w.quality : ℝ) + s.community * (w.community : ℝ) +
    s.author * (w.author : ℝ) + s.market * (w.market : ℝ) +
    s.recency * (w.recency : ℝ) + s.diversity * (w.diversity : ℝ)

/-- An `EnsembleRanker` instance: its strategy and resolved weight vector. -/
structure EnsembleRanker where
  strategy : RankingStrategy
  weights : Weights

/-- `EnsembleRanker.__init__`: `STRATEGY_WEIGHTS.get(strategy, STRATEGY_WEIGHTS[BALANCED])`. -/
def mkRanker (strategy : RankingStrategy) : EnsembleRanker :=
  ⟨strategy, (STRATEGY_WEIGHTS strategy).getD balanced_weights⟩

/-- One element of `rank_posts`' output: the post together with its
attached `signals` map and `final_score`. -/
structure ScoredPost where
  post : Post
  signals : Signals
  final_score : ℝ

/-- The comparison under which Python's stable `sort(key=final_score,
reverse=True)` sorts: `a` may precede `b` iff `b.final_score ≤ a.final_score`. -/
noncomputable def scoredLE (a b : ScoredPost) : Bool :=
  decide (b.final_score ≤ a.final_score)

/-- The scoring loop of `EnsembleRanker.rank_posts`: fold over the batch in
input order, computing signals against the running `seen_tickers` /
`seen_sectors` session state and updating that state after each post
(tickers only when the list is truthy, sector only when truthy). -/
noncomputable def score_posts (ranker : EnsembleRanker) (now : ℚ)
    (user_preferences : Option UserPreferences) :
    List Post → Finset String → Finset String → List ScoredPost
  | [], _, _ => []
  | post :: rest, seen_tickers, seen_sectors =>
    let signals := compute_signals ranker.strategy now post seen_tickers seen_sectors
      user_preferences
    let final_score := aggregate_signals ranker.weights signals
    let seen_tickers2 :=
      if post.tickers.isEmpty then seen_tickers else seen_tickers ∪ post.tickers.toFinset
    let seen_sectors2 :=
      match post.sector with
      | some s => if s = "" then seen_sectors else insert s seen_sectors
      | none => seen_sectors
    ⟨post, signals, final_score⟩ :: score_posts ranker now user_preferences rest
      seen_tickers2 seen_sectors2

/-- `EnsembleRanker.rank_posts`: score the batch in input order starting
from empty session state, then stably sort descending by `final_score`.
(The source's early return on an empty batch coincides with sorting the
empty scored list.) -/
noncomputable def rank_posts (ranker : EnsembleRanker) (now : ℚ)
    (posts : List Post) (user_preferences : Option UserPreferences) :
    List ScoredPost :=
  (score_posts ranker now user_preferences posts ∅ ∅).mergeSort scoredLE

/-- `RankingStrategy(strategy)` with the `except ValueError` fallback of
`get_ranker`: an unknown value string resolves to `balanced`. -/
def strategy_of_string (s : String) : RankingStrategy :=
  if s = "balanced" then .balanced
  else if s = "quality_focused" then .quality_focused
  else if s = "timely" then .timely
  else if s = "diverse" then .diverse
  else if s = "personalized" then .personalized
  else .balanced

/-- `get_ranker`. -/
def get_ranker (s : String) : EnsembleRanker :=
  mkRanker (strategy_of_string s)

/-- Sum of the six entries of a weight vector. -/
def sum_weights (w : Weights) : ℚ :=
  w.quality + w.community + w.author + w.market + w.recency + w.diversity

/-- An optional score is absent or lies in the unit interval. -/
def inUnitOpt (o : Option ℚ) : Bool :=
  match o with
  | none => true
  | some x => decide (0 ≤ x) && decide (x ≤ 1)

/-- The post's creation time, when it parses, is not in the future. -/
def created_ok (now : ℚ) (post : Post) : Bool :=
  match post.created_at with
  | .parsed t => decide (t ≤ now)
  | _ => true

/-- All seven optional numeric fields of the post, when present, lie in `[0,1]`. -/
def post_in_range (p : Post) : Bool :=
  inUnitOpt p.quality_score && inUnitOpt p.confidence_level &&
    inUnitOpt p.relevance_score && inUnitOpt p.market_alignment_score &&
    inUnitOpt p.author_reputation && inUnitOpt p.historical_accuracy &&
    inUnitOpt p.sector_expertise_score

/-- Reference half-life taken from the spec's words: 12h for `timely`, 72h
for `quality_focused`, 24h for every other strategy. -/
def half_life_ref (strategy : RankingStrategy) : ℚ :=
  match strategy with
  | .timely => 12
  | .quality_focused => 72
  | .balanced => 24
  | .diverse => 24
  | .personalized => 24

/-- Reference recency extractor, written from the spec's words: neutral 0.5
when the timestamp is missing or unparseable, otherwise
`max 0.1 (exp (-age_hours / half_life))`. -/
noncomputable def recency_ref (strategy : RankingStrategy) (now : ℚ) (post : Post) : ℝ :=
  match post.created_at with
  | .missing => 0.5
  | .unparseable => 0.5
  | .parsed t =>
    max 0.1 (Real.exp (-(((now - t : ℚ) : ℝ) / (half_life_ref strategy : ℝ))))

/-- Reference quality extractor, written from the spec's words:
`min 1 (base + confidence_bonus + length_bonus + detail_bonus)`. -/
def quality_ref (post : Post) : ℚ :=
  min 1 ((post.quality_score.getD 0.5) +
    (if 0.8 < post.confidence_level.getD 0.5 then (0.1 : ℚ) else 0) +
    (if 200 < post.content.length ∧ post.content.length < 2000 then (0.05 : ℚ) else 0) +
    (if post.key_points ≠ [] ∧ post.potential_catalysts ≠ [] then (0.05 : ℚ) else 0))

/-- The six signal values all lie in the unit interval. -/
def SignalsInUnit (s : Signals) : Prop :=
  (0 ≤ s.quality ∧ s.quality ≤ 1) ∧ (0 ≤ s.community ∧ s.community ≤ 1) ∧
    (0 ≤ s.author ∧ s.author ≤ 1) ∧ (0 ≤ s.market ∧ s.market ≤ 1) ∧
    (0 ≤ s.recency ∧ s.recency ≤ 1) ∧ (0 ≤ s.diversity ∧ s.diversity ≤ 1)

/-- Concrete post of the spec's quality example: quality 0.5, confidence
0.9, 500 characters of content, non-empty key points and catalysts. -/
def ex_quality_post : Post :=
  { quality_score := some 0.5, confidence_level := some 0.9,
    content := ⟨List.replicate 500 'a'⟩,
    key_points := ["a"], potential_catalysts := ["b"] }

/-- Concrete post created at time 0 (ranked at `now = 24`, i.e. exactly 24
hours old). -/
def ex_recent_post : Post :=
  { created_at := .parsed 0 }

/-- Concrete post whose creation timestamp parses to 240 hours after the
clock time `now = 0` at which it is ranked (a future timestamp). -/
def future_post : Post :=
  { created_at := .parsed 240 }

/-- Concrete post carrying an explicit `quality_score` of 0 and earning no
bonus. -/
def zero_quality_post : Post :=
  { quality_score := some 0 }

/-- Concrete post mentioning the ticker NVDA. -/
def nvda_post : Post :=
  { tickers := ["NVDA"] }

/-- Concrete in-range post for witnesses. -/
def unit_post : Post :=
  { quality_score := some 0.8, confidence_level := some 0.9,
    created_at := .parsed (-5), like_count := some 3,
    tickers := ["AAPL"], sector := some "tech" }

/-- The post of the stable-sort witness (all fields defaulted). -/
def wPost : Post := {}

/-- The scored form `wPost` takes as either element of the batch
`[wPost, wPost]` under the balanced ranker at `now = 0` (the session state
stays empty since `wPost` has no tickers and no sector). -/
noncomputable def wScored : ScoredPost :=
  ⟨wPost, compute_signals .balanced 0 wPost ∅ ∅ none,
    aggregate_signals balanced_weights (compute_signals .balanced 0 wPost ∅ ∅ none)⟩

noncomputable instance : Inhabited ScoredPost :=
  ⟨⟨{}, ⟨0, 0, 0, 0, 0, 0⟩, 0⟩⟩

theorem getD_mem_unit (o : Option ℚ) (d : ℚ) (h : inUnitOpt o = true)
    (hd0 : 0 ≤ d) (hd1 : d ≤ 1) : 0 ≤ o.getD d ∧ o.getD d ≤ 1 := by
  cases o with
  | none => exact ⟨hd0, hd1⟩
  | some x =>
    simp only [inUnitOpt, Bool.and_eq_true, decide_eq_true_eq] at h
    simpa using h

theorem compute_quality_signal_mem (p : Post)
    (h : inUnitOpt p.quality_score = true) :
    0 ≤ compute_quality_signal p ∧ compute_quality_signal p ≤ 1 := by
  obtain ⟨hb0, -⟩ := getD_mem_unit p.quality_score 0.5 h (by norm_num) (by norm_num)
  simp only [compute_quality_signal]
  refine ⟨le_min (by norm_num) ?_, min_le_left _ _⟩
  split_ifs <;> linarith

theorem compute_author_signal_mem (p : Post)
    (h1 : inUnitOpt p.author_reputation = true)
    (h2 : inUnitOpt p.historical_accuracy = true) :
    0 ≤ compute_author_signal p ∧ compute_author_signal p ≤ 1 := by
  obtain ⟨hr0, -⟩ := getD_mem_unit p.author_reputation 0.5 h1 (by norm_num) (by norm_num)
  obtain ⟨ha0, -⟩ := getD_mem_unit p.historical_accuracy 0.5 h2 (by norm_num) (by norm_num)
  simp only [compute_author_signal]
  refine ⟨le_min (by norm_num) ?_, min_le_left _ _⟩
  split_ifs <;> nlinarith

theorem compute_market_signal_mem (p : Post)
    (h1 : inUnitOpt p.market_alignment_score = true)
    (h2 : inUnitOpt p.relevance_score = true) :
    0 ≤ compute_market_signal p ∧ compute_market_signal p ≤ 1 := by
  obtain ⟨hm0, -⟩ := getD_mem_unit p.market_alignment_score 0.5 h1 (by norm_num) (by norm_num)
  obtain ⟨hv0, -⟩ := getD_mem_unit p.relevance_score 0.5 h2 (by norm_num) (by norm_num)
  simp only [compute_market_signal]
  refine ⟨le_min (by norm_num) ?_, min_le_left _ _⟩
  split_ifs <;> nlinarith

theorem log1p_term_mem (n : ℕ) (D : ℝ) (hD : 0 < D) :
    0 ≤ min 1 (Real.log (1 + (n : ℝ)) / D) ∧ min 1 (Real.log (1 + (n : ℝ)) / D) ≤ 1 := by
  have hlog : 0 ≤ Real.log (1 + (n : ℝ)) :=
    Real.log_nonneg (le_add_of_nonneg_right (Nat.cast_nonneg n))
  exact ⟨le_min zero_le_one (div_nonneg hlog hD.le), min_le_left _ _⟩

theorem compute_community_signal_mem (p : Post) :
    0 ≤ compute_community_signal p ∧ compute_community_signal p ≤ 1 := by
  obtain ⟨hl0, hl1⟩ := log1p_term_mem (p.like_count.getD 0) 5 (by norm_num)
  obtain ⟨hc0, hc1⟩ := log1p_term_mem (p.comment_count.getD 0) 3 (by norm_num)
  obtain ⟨hv0, hv1⟩ := log1p_term_mem (p.view_count.getD 0) 10 (by norm_num)
  simp only [compute_community_signal]
  constructor <;> nlinarith

theorem half_life_of_pos (strategy : RankingStrategy) : 0 < half_life_of strategy := by
  cases strategy <;> norm_num [half_life_of]

theorem compute_recency_signal_mem (strategy : RankingStrategy) (now : ℚ) (p : Post)
    (h : created_ok now p = true) :
    0 ≤ compute_recency_signal strategy now p ∧ compute_recency_signal strategy now p ≤ 1 := by
  unfold compute_recency_signal
  cases hca : p.created_at with
  | missing => norm_num
  | unparseable => norm_num
  | parsed t =>
    simp only [created_ok, hca, decide_eq_true_eq] at h
    have hhl : (0 : ℝ) < (half_life_of strategy : ℝ) := by
      exact_mod_cast half_life_of_pos strategy
    have hage : (0 : ℝ) ≤ ((now - t : ℚ) : ℝ) := by
      have : (0 : ℚ) ≤ now - t := by linarith
      exact_mod_cast this
    have hexp : Real.exp (-(((now - t : ℚ) : ℝ) / (half_life_of strategy : ℝ))) ≤ 1 :=
      Real.exp_le_one_iff.mpr (neg_nonpos.mpr (div_nonneg hage hhl.le))
    constructor
    · exact le_trans (by norm_num) (le_max_left _ _)
    · exact max_le (by norm_num) hexp

theorem compute_diversity_signal_mem (p : Post) (st ss : Finset String) :
    3 / 10 ≤ compute_diversity_signal p st ss ∧ compute_diversity_signal p st ss ≤ 1 := by
  have hmax : ∀ x : ℚ, x ≤ 1 → 3 / 10 ≤ max 0.3 x ∧ max 0.3 x ≤ 1 := fun x hx =>
    ⟨le_trans (by norm_num) (le_max_left _ _), max_le (by norm_num) hx⟩
  have hratio : ∀ pt : Finset String,
      0 ≤ ((pt ∩ st).card : ℚ) / (pt.card : ℚ) ∧
        ((pt ∩ st).card : ℚ) / (pt.card : ℚ) ≤ 1 := by
    intro pt
    rcases Nat.eq_zero_or_pos pt.card with h0 | hpos
    · have hz : (pt ∩ st).card = 0 :=
        Nat.le_zero.mp (h0 ▸ Finset.card_le_card Finset.inter_subset_left)
      simp [hz, h0]
    · exact ⟨div_nonneg (by positivity) (by positivity),
        (div_le_one (by exact_mod_cast hpos)).mpr
          (by exact_mod_cast Finset.card_le_card Finset.inter_subset_left)⟩
  obtain ⟨hr0, hr1⟩ := hratio p.tickers.toFinset
  simp only [compute_diversity_signal]
  rcases p.sector with - | s <;> dsimp only <;> split_ifs <;> refine hmax _ ?_ <;> nlinarith

theorem aggregate_signals_mem (w : Weights) (s : Signals)
    (hw0 : 0 ≤ w.quality ∧ 0 ≤ w.community ∧ 0 ≤ w.author ∧ 0 ≤ w.market ∧
      0 ≤ w.recency ∧ 0 ≤ w.diversity)
    (hw1 : sum_weights w = 1) (hs : SignalsInUnit s) :
    0 ≤ aggregate_signals w s ∧ aggregate_signals w s ≤ 1 := by
  obtain ⟨hwq, hwc, hwa, hwm, hwr, hwd⟩ := hw0
  obtain ⟨⟨hq0, hq1⟩, ⟨hc0, hc1⟩, ⟨ha0, ha1⟩, ⟨hm0, hm1⟩, ⟨hr0, hr1⟩, ⟨hd0, hd1⟩⟩ := hs
  have hwq' : (0 : ℝ) ≤ (w.quality : ℝ) := by exact_mod_cast hwq
  have hwc' : (0 : ℝ) ≤ (w.community : ℝ) := by exact_mod_cast hwc
  have hwa' : (0 : ℝ) ≤ (w.author : ℝ) := by exact_mod_cast hwa
  have hwm' : (0 : ℝ) ≤ (w.market : ℝ) := by exact_mod_cast hwm
  have hwr' : (0 : ℝ) ≤ (w.recency : ℝ) := by exact_mod_cast hwr
  have hwd' : (0 : ℝ) ≤ (w.diversity : ℝ) := by exact_mod_cast hwd
  have hsum : (w.quality : ℝ) + (w.community : ℝ) + (w.author : ℝ) + (w.market : ℝ) +
      (w.recency : ℝ) + (w.diversity : ℝ) = 1 := by
    unfold sum_weights at hw1
    exact_mod_cast hw1
  unfold aggregate_signals
  constructor
  · have t1 := mul_nonneg hq0 hwq'
    have t2 := mul_nonneg hc0 hwc'
    have t3 := mul_nonneg ha0 hwa'
    have t4 := mul_nonneg hm0 hwm'
    have t5 := mul_nonneg hr0 hwr'
    have t6 := mul_nonneg hd0 hwd'
    linarith
  · have t1 : s.quality * (w.quality : ℝ) ≤ (w.quality : ℝ) := mul_le_of_le_one_left hwq' hq1
    have t2 : s.community * (w.community : ℝ) ≤ (w.community : ℝ) :=
      mul_le_of_le_one_left hwc' hc1
    have t3 : s.author * (w.author : ℝ) ≤ (w.author : ℝ) := mul_le_of_le_one_left hwa' ha1
    have t4 : s.market * (w.market : ℝ) ≤ (w.market : ℝ) := mul_le_of_le_one_left hwm' hm1
    have t5 : s.recency * (w.recency : ℝ) ≤ (w.recency : ℝ) := mul_le_of_le_one_left hwr' hr1
    have t6 : s.diversity * (w.diversity : ℝ) ≤ (w.diversity : ℝ) :=
      mul_le_of_le_one_left hwd' hd1
    linarith

theorem mkRanker_weights_ok (strat : RankingStrategy) :
    (0 ≤ (mkRanker strat).weights.quality ∧ 0 ≤ (mkRanker strat).weights.community ∧
      0 ≤ (mkRanker strat).weights.author ∧ 0 ≤ (mkRanker strat).weights.market ∧
      0 ≤ (mkRanker strat).weights.recency ∧ 0 ≤ (mkRanker strat).weights.diversity) ∧
    sum_weights (mkRanker strat).weights = 1 := by
  cases strat <;>
    norm_num [mkRanker, STRATEGY_WEIGHTS, balanced_weights, sum_weights, Option.getD]

theorem compute_signals_in_unit (strategy : RankingStrategy) (now : ℚ) (p : Post)
    (st ss : Finset String) (prefs : Option UserPreferences)
    (h : post_in_range p = true) (hc : created_ok now p = true) :
    SignalsInUnit (compute_signals strategy now p st ss prefs) := by
  simp only [post_in_range, Bool.and_eq_true] at h
  obtain ⟨⟨⟨⟨⟨⟨hq, hcf⟩, hrl⟩, hma⟩, har⟩, hha⟩, hse⟩ := h
  have h1 := compute_quality_signal_mem p hq
  have h2 := compute_community_signal_mem p
  have h3 := compute_author_signal_mem p har hha
  have h4 := compute_market_signal_mem p hma hrl
  have h5 := compute_recency_signal_mem strategy now p hc
  have h6 := compute_diversity_signal_mem p st ss
  unfold SignalsInUnit compute_signals
  dsimp only
  refine ⟨⟨?_, ?_⟩, h2, ⟨?_, ?_⟩, ⟨?_, ?_⟩, h5, ⟨?_, ?_⟩⟩
  · exact_mod_cast h1.1
  · exact_mod_cast h1.2
  · exact_mod_cast h3.1
  · exact_mod_cast h3.2
  · exact_mod_cast h4.1
  · exact_mod_cast h4.2
  · have hd : ((3 / 10 : ℚ) : ℝ) ≤ ((compute_diversity_signal p st ss : ℚ) : ℝ) := by
      exact_mod_cast h6.1
    have h0 : ((3 / 10 : ℚ) : ℝ) = 3 / 10 := by norm_num
    linarith
  · exact_mod_cast h6.2

theorem mem_score_posts (r : EnsembleRanker) (now : ℚ) (prefs : Option UserPreferences) :
    ∀ (posts : List Post) (st ss : Finset String) (sp : ScoredPost),
      sp ∈ score_posts r now prefs posts st ss →
      ∃ (p : Post) (st2 ss2 : Finset String), p ∈ posts ∧
        sp = ⟨p, compute_signals r.strategy now p st2 ss2 prefs,
          aggregate_signals r.weights (compute_signals r.strategy now p st2 ss2 prefs)⟩ := by
  intro posts
  induction posts with
  | nil => intro st ss sp h; simp [score_posts] at h
  | cons p rest ih =>
    intro st ss sp h
    simp only [score_posts, List.mem_cons] at h
    rcases h with h | h
    · exact ⟨p, st, ss, List.mem_cons_self p rest, h⟩
    · obtain ⟨q, st2, ss2, hq, hsp⟩ := ih _ _ _ h
      exact ⟨q, st2, ss2, List.mem_cons_of_mem p hq, hsp⟩

theorem score_posts_map_post (r : EnsembleRanker) (now : ℚ)
    (prefs : Option UserPreferences) :
    ∀ (posts : List Post) (st ss : Finset String),
      (score_posts r now prefs posts st ss).map ScoredPost.post = posts := by
  intro posts
  induction posts with
  | nil => intro st ss; rfl
  | cons p rest ih => intro st ss; simp only [score_posts, List.map_cons, ih]

theorem score_posts_prefs_eq (r : EnsembleRanker) (now : ℚ)
    (p1 p2 : Option UserPreferences) :
    ∀ (posts : List Post) (st ss : Finset String),
      score_posts r now p1 posts st ss = score_posts r now p2 posts st ss := by
  intro posts
  induction posts with
  | nil => intro st ss; rfl
  | cons p rest ih =>
    intro st ss
    simp only [score_posts]
    exact congrArg₂ List.cons rfl (ih _ _)

theorem scoredLE_trans : ∀ a b c : ScoredPost, scoredLE a b → scoredLE b c → scoredLE a c := by
  intro a b c hab hbc
  simp only [scoredLE, decide_eq_true_eq] at hab hbc ⊢
  exact le_trans hbc hab

theorem scoredLE_total : ∀ a b : ScoredPost, scoredLE a b || scoredLE b a := by
  intro a b
  simp only [scoredLE, Bool.or_eq_true, decide_eq_true_eq]
  exact le_total _ _

theorem compute_diversity_signal_empty (p : Post) : compute_diversity_signal p ∅ ∅ = 1 := by
  simp only [compute_diversity_signal]
  have hemp : ¬(p.tickers.toFinset ≠ ∅ ∧ (∅ : Finset String) ≠ ∅) := fun h => h.2 rfl
  rcases p.sector with - | s <;> dsimp only
  · rw [if_neg hemp]
    exact max_eq_right (by norm_num)
  · rw [if_neg (fun h => absurd h.2 (Finset.not_mem_empty s)), if_neg hemp]
    exact max_eq_right (by norm_num)

theorem mem_score_posts_diversity_le_one (r : EnsembleRanker) (now : ℚ)
    (prefs : Option UserPreferences) (posts : List Post) (st ss : Finset String)
    (sp : ScoredPost) (h : sp ∈ score_posts r now prefs posts st ss) :
    sp.signals.diversity ≤ 1 := by
  obtain ⟨p, st2, ss2, -, hsp⟩ := mem_score_posts r now prefs posts st ss sp h
  subst hsp
  show (compute_signals r.strategy now p st2 ss2 prefs).diversity ≤ 1
  unfold compute_signals
  dsimp only
  exact_mod_cast (compute_diversity_signal_mem p st2 ss2).2

theorem score_posts_nil (r : EnsembleRanker) (now : ℚ) (prefs : Option UserPreferences)
    (st ss : Finset String) : score_posts r now prefs [] st ss = [] := rfl

theorem score_posts_cons (r : EnsembleRanker) (now : ℚ) (prefs : Option UserPreferences)
    (p : Post) (rest : List Post) (st ss : Finset String) :
    score_posts r now prefs (p :: rest) st ss =
      ⟨p, compute_signals r.strategy now p st ss prefs,
        aggregate_signals r.weights (compute_signals r.strategy now p st ss prefs)⟩ ::
      score_posts r now prefs rest
        (if p.tickers.isEmpty then st else st ∪ p.tickers.toFinset)
        (match p.sector with
         | some s => if s = "" then ss else insert s ss
         | none => ss) := rfl

theorem score_posts_head_diversity (r : EnsembleRanker) (now : ℚ)
    (prefs : Option UserPreferences) (p : Post) (rest : List Post) :
    ((score_posts r now prefs (p :: rest) ∅ ∅).headI).signals.diversity = 1 := by
  rw [score_posts_cons]
  show (compute_signals r.strategy now p ∅ ∅ prefs).diversity = 1
  unfold compute_signals
  dsimp only
  exact_mod_cast compute_diversity_signal_empty p

/-- Claim C4: the quality extractor equals the reference definition
`min 1 (base + confidence_bonus + length_bonus + detail_bonus)` with base
defaulting to 0.5, +0.1 for confidence above 0.8, +0.05 for content length
strictly between 200 and 2000, +0.05 for non-empty key points and
catalysts; and the spec's concrete example scores exactly 0.70. -/
theorem claim_c4_quality_matches_ref :
    (∀ p : Post, compute_quality_signal p = quality_ref p) ∧
    compute_quality_signal ex_quality_post = 0.70 := by
  constructor
  · intro p
    rfl
  · have hlen : ex_quality_post.content.length = 500 := by
      show (List.replicate 500 'a').length = 500
      exact List.length_replicate 500 'a'
    norm_num [compute_quality_signal, ex_quality_post, hlen, min_def]

/-- Claim C6: the strategy table holds exactly the four advertised weight rows
(with `personalized` absent), and each row's six weights sum to 1. -/
theorem claim_c6_strategy_weights_table :
    STRATEGY_WEIGHTS .balanced = some ⟨0.25, 0.20, 0.20, 0.15, 0.15, 0.05⟩ ∧
    STRATEGY_WEIGHTS .quality_focused = some ⟨0.40, 0.10, 0.30, 0.10, 0.05, 0.05⟩ ∧
    STRATEGY_WEIGHTS .timely = some ⟨0.15, 0.15, 0.10, 0.30, 0.25, 0.05⟩ ∧
    STRATEGY_WEIGHTS .diverse = some ⟨0.20, 0.15, 0.15, 0.10, 0.15, 0.25⟩ ∧
    STRATEGY_WEIGHTS .personalized = none ∧
    sum_weights ⟨0.25, 0.20, 0.20, 0.15, 0.15, 0.05⟩ = 1 ∧
    sum_weights ⟨0.40, 0.10, 0.30, 0.10, 0.05, 0.05⟩ = 1 ∧
    sum_weights ⟨0.15, 0.15, 0.10, 0.30, 0.25, 0.05⟩ = 1 ∧
    sum_weights ⟨0.20, 0.15, 0.15, 0.10, 0.15, 0.25⟩ = 1 := by
  refine ⟨rfl, rfl, rfl, rfl, rfl, ?_, ?_, ?_, ?_⟩ <;> norm_num [sum_weights]

/-- Claim C7: every strategy string other than the five known enum values
resolves to a ranker whose weight vector is the balanced one. -/
theorem claim_c7_unknown_strategy_falls_back (s : String)
    (h1 : s ≠ "balanced") (h2 : s ≠ "quality_focused") (h3 : s ≠ "timely")
    (h4 : s ≠ "diverse") (h5 : s ≠ "personalized") :
    (get_ranker s).weights = (get_ranker "balanced").weights := by
  unfold get_ranker strategy_of_string
  rw [if_neg h1, if_neg h2, if_neg h3, if_neg h4, if_neg h5, if_pos rfl]

theorem claim_c7_witness :
    ("nonexistent" ≠ "balanced" ∧ "nonexistent" ≠ "quality_focused" ∧
      "nonexistent" ≠ "timely" ∧ "nonexistent" ≠ "diverse" ∧
      "nonexistent" ≠ "personalized") ∧
    (get_ranker "nonexistent").weights = (get_ranker "balanced").weights :=
  ⟨⟨by decide, by decide, by decide, by decide, by decide⟩,
    claim_c7_unknown_strategy_falls_back "nonexistent" (by decide) (by decide)
      (by decide) (by decide) (by decide)⟩

/-- Claim C8: `user_preferences` is inert; any two preference values (present or
absent) produce identical `rank_posts` output on every batch. -/
theorem claim_c8_user_preferences_inert (r : EnsembleRanker) (now : ℚ)
    (posts : List Post) (prefs1 prefs2 : Option UserPreferences) :
    rank_posts r now posts prefs1 = rank_posts r now posts prefs2 := by
  unfold rank_posts
  rw [score_posts_prefs_eq r now prefs1 prefs2]

/-- Claim C9: the first post processed by a `rank_posts` batch is scored against
empty session state, so its diversity signal is exactly 1. -/
theorem claim_c9_first_post_diversity_one (strat : RankingStrategy) (now : ℚ)
    (prefs : Option UserPreferences) (p : Post) (rest : List Post) :
    ((score_posts (mkRanker strat) now prefs (p :: rest) ∅ ∅).headI).signals.diversity = 1 :=
  score_posts_head_diversity (mkRanker strat) now prefs p rest

/-- Claim C5: in a batch whose posts all mention one common ticker, every post
after the first receives a diversity signal at most the first post's
(which is 1, the seen-sets being empty before the first post). -/
theorem claim_c5_later_diversity_le_first (strat : RankingStrategy) (now : ℚ)
    (prefs : Option UserPreferences) (T : String) (p : Post) (rest : List Post)
    (hcommon : ∀ q ∈ p :: rest, T ∈ q.tickers) :
    ∀ sp ∈ (score_posts (mkRanker strat) now prefs (p :: rest) ∅ ∅).tail,
      sp.signals.diversity ≤
        ((score_posts (mkRanker strat) now prefs (p :: rest) ∅ ∅).headI).signals.diversity := by
  intro sp hsp
  rw [score_posts_head_diversity]
  exact mem_score_posts_diversity_le_one (mkRanker strat) now prefs (p :: rest) ∅ ∅ sp
    (List.mem_of_mem_tail hsp)

theorem claim_c5_witness :
    (∀ q ∈ [nvda_post, nvda_post, nvda_post], "NVDA" ∈ q.tickers) ∧
    (∀ sp ∈ (score_posts (mkRanker .balanced) 0 none
        [nvda_post, nvda_post, nvda_post] ∅ ∅).tail,
      sp.signals.diversity ≤
        ((score_posts (mkRanker .balanced) 0 none
          [nvda_post, nvda_post, nvda_post] ∅ ∅).headI).signals.diversity) :=
  ⟨by decide,
    claim_c5_later_diversity_le_first .balanced 0 none "NVDA" nvda_post
      [nvda_post, nvda_post] (by decide)⟩

/-- Claim C3: the recency extractor equals the reference definition (0.5 on a
missing or unparseable timestamp, otherwise
`max 0.1 (exp (-age_hours / half_life))` with half-life 12 for `timely`,
72 for `quality_focused`, 24 otherwise), and a post created exactly 24
hours ago under `balanced` yields exactly `exp (-1)` (not floored). -/
theorem claim_c3_recency_matches_ref :
    (∀ (strategy : RankingStrategy) (now : ℚ) (p : Post),
      compute_recency_signal strategy now p = recency_ref strategy now p) ∧
    compute_recency_signal .balanced 24 ex_recent_post = Real.exp (-1) := by
  constructor
  · intro strategy now p
    unfold compute_recency_signal recency_ref
    rcases p.created_at with - | - | t
    · rfl
    · rfl
    · cases strategy <;> rfl
  · show max 0.1 (Real.exp (-(((24 - 0 : ℚ) : ℝ) / ((half_life_of .balanced : ℚ) : ℝ)))) =
      Real.exp (-1)
    have harg : -(((24 - 0 : ℚ) : ℝ) / ((half_life_of .balanced : ℚ) : ℝ)) = -1 := by
      show -(((24 - 0 : ℚ) : ℝ) / ((24 : ℚ) : ℝ)) = -1
      push_cast
      norm_num
    rw [harg]
    refine max_eq_right ?_
    have hlt : Real.exp 1 < 2.7182818286 := Real.exp_one_lt_d9
    have h10 : Real.exp 1 ≤ 10 := by linarith
    have hinv : (10 : ℝ)⁻¹ ≤ (Real.exp 1)⁻¹ := inv_anti₀ (Real.exp_pos 1) h10
    rw [Real.exp_neg]
    have h01 : (0.1 : ℝ) = (10 : ℝ)⁻¹ := by norm_num
    rw [h01]
    exact hinv

theorem log1p_term_eq_zero_iff (n : ℕ) (D : ℝ) (hD : 0 < D) :
    min 1 (Real.log (1 + (n : ℝ)) / D) = 0 ↔ n = 0 := by
  have hge : (1 : ℝ) ≤ 1 + (n : ℝ) := le_add_of_nonneg_right (Nat.cast_nonneg n)
  have hlog : 0 ≤ Real.log (1 + (n : ℝ)) := Real.log_nonneg hge
  constructor
  · intro h
    rcases min_cases 1 (Real.log (1 + (n : ℝ)) / D) with ⟨heq, -⟩ | ⟨heq, -⟩
    · exact absurd (heq ▸ h) one_ne_zero
    · have hterm0 : Real.log (1 + (n : ℝ)) / D = 0 := heq ▸ h
      have hlog0 : Real.log (1 + (n : ℝ)) = 0 := by
        rcases div_eq_zero_iff.mp hterm0 with h0 | h0
        · exact h0
        · exact absurd h0 hD.ne'
      rcases Real.log_eq_zero.mp hlog0 with h1 | h1 | h1
      · linarith
      · have hn : (n : ℝ) = 0 := by linarith
        exact_mod_cast hn
      · linarith
  · intro h
    subst h
    norm_num [Real.log_one, min_def]

/-- Claim C10, amended: the community extractor returns exactly 0 iff the like,
comment, and view counts are all 0 or absent.  (Community is not the only
signal able to reach 0 — see the counterexample on the quality signal.) -/
theorem claim_c10_community_zero_iff (p : Post) :
    compute_community_signal p = 0 ↔
      (p.like_count.getD 0 = 0 ∧ p.comment_count.getD 0 = 0 ∧ p.view_count.getD 0 = 0) := by
  have t1 := log1p_term_mem (p.like_count.getD 0) 5 (by norm_num)
  have t2 := log1p_term_mem (p.comment_count.getD 0) 3 (by norm_num)
  have t3 := log1p_term_mem (p.view_count.getD 0) 10 (by norm_num)
  have e1 := log1p_term_eq_zero_iff (p.like_count.getD 0) 5 (by norm_num)
  have e2 := log1p_term_eq_zero_iff (p.comment_count.getD 0) 3 (by norm_num)
  have e3 := log1p_term_eq_zero_iff (p.view_count.getD 0) 10 (by norm_num)
  simp only [compute_community_signal]
  constructor
  · intro h
    refine ⟨e1.mp ?_, e2.mp ?_, e3.mp ?_⟩ <;>
      nlinarith [t1.1, t2.1, t3.1, t1.2, t2.2, t3.2]
  · rintro ⟨h1, h2, h3⟩
    rw [e1.mpr h1, e2.mpr h2, e3.mpr h3]
    norm_num

/-- Claim C10 counterexample to "community is the only signal that can reach 0":
a post carrying an explicit `quality_score` of 0 and earning no bonus has
quality signal exactly 0. -/
theorem claim_c10_counterexample :
    zero_quality_post.quality_score = some 0 ∧
      compute_quality_signal zero_quality_post = 0 := by
  refine ⟨rfl, ?_⟩
  norm_num [compute_quality_signal, zero_quality_post, min_def]

/-- Claim C2: `rank_posts` returns exactly the scored batch (a permutation of
the in-order scored list, whose posts are the input in order), sorted
descending by `final_score`, and stably: two scored posts with equal
`final_score` appearing in processing order also appear in that order in
the output. -/
theorem claim_c2_rank_posts_sorted_stable (r : EnsembleRanker) (now : ℚ)
    (prefs : Option UserPreferences) (posts : List Post) :
    (rank_posts r now posts prefs).Perm (score_posts r now prefs posts ∅ ∅) ∧
    (score_posts r now prefs posts ∅ ∅).map ScoredPost.post = posts ∧
    (rank_posts r now posts prefs).Pairwise
      (fun a b => b.final_score ≤ a.final_score) ∧
    (∀ a b : ScoredPost, a.final_score = b.final_score →
      [a, b].Sublist (score_posts r now prefs posts ∅ ∅) →
      [a, b].Sublist (rank_posts r now posts prefs)) := by
  refine ⟨List.mergeSort_perm _ _, score_posts_map_post r now prefs posts ∅ ∅, ?_, ?_⟩
  · have hp := List.sorted_mergeSort scoredLE_trans scoredLE_total
      (score_posts r now prefs posts ∅ ∅)
    refine List.Pairwise.imp ?_ hp
    intro a b hab
    simpa [scoredLE, decide_eq_true_eq] using hab
  · intro a b hfs hsub
    refine List.pair_sublist_mergeSort scoredLE_trans scoredLE_total ?_ hsub
    simp only [scoredLE, decide_eq_true_eq]
    exact le_of_eq hfs.symm

theorem claim_c2_witness :
    wScored.final_score = wScored.final_score ∧
    [wScored, wScored].Sublist (score_posts (mkRanker .balanced) 0 none [wPost, wPost] ∅ ∅) ∧
    [wScored, wScored].Sublist (rank_posts (mkRanker .balanced) 0 [wPost, wPost] none) := by
  have hs : score_posts (mkRanker .balanced) 0 none [wPost, wPost] ∅ ∅ =
      [wScored, wScored] := rfl
  refine ⟨rfl, ?_, ?_⟩
  · rw [hs]
  · exact (claim_c2_rank_posts_sorted_stable (mkRanker .balanced) 0 none
      [wPost, wPost]).2.2.2 wScored wScored rfl (by rw [hs])

/-- Claim C1 counterexample: the claim as stated is false.  A post whose
creation timestamp parses to 240 hours after the ranking clock satisfies
every hypothesis of the claim (all optional numeric fields absent, counts
absent), yet its recency signal is `exp 10 > 1` and its final score under
`balanced` is `0.35 + 0.15 * exp 10 > 1`. -/
theorem claim_c1_counterexample :
    post_in_range future_post = true ∧
    1 < ((rank_posts (mkRanker .balanced) 0 [future_post] none).headI).final_score := by
  refine ⟨rfl, ?_⟩
  have hlist : rank_posts (mkRanker .balanced) 0 [future_post] none =
      [⟨future_post, compute_signals .balanced 0 future_post ∅ ∅ none,
        aggregate_signals balanced_weights (compute_signals .balanced 0 future_post ∅ ∅ none)⟩] := by
    unfold rank_posts
    rw [score_posts_cons, score_posts_nil, List.mergeSort_singleton]
    rfl
  rw [hlist]
  show 1 < aggregate_signals balanced_weights (compute_signals .balanced 0 future_post ∅ ∅ none)
  have hq : compute_quality_signal future_post = 0.5 := by
    norm_num [compute_quality_signal, future_post, min_def]
  have ha : compute_author_signal future_post = 0.5 := by
    norm_num [compute_author_signal, future_post, min_def]
  have hm : compute_market_signal future_post = 0.5 := by
    norm_num [compute_market_signal, future_post, min_def]
  have hd : compute_diversity_signal future_post ∅ ∅ = 1 := compute_diversity_signal_empty _
  have hcm : compute_community_signal future_post = 0 := by
    norm_num [compute_community_signal, future_post, Real.log_one, min_def]
  have hr : compute_recency_signal .balanced 0 future_post = Real.exp 10 := by
    show max 0.1 (Real.exp (-(((0 - 240 : ℚ) : ℝ) / ((half_life_of .balanced : ℚ) : ℝ)))) =
      Real.exp 10
    have harg : -(((0 - 240 : ℚ) : ℝ) / ((half_life_of .balanced : ℚ) : ℝ)) = 10 := by
      show -(((0 - 240 : ℚ) : ℝ) / ((24 : ℚ) : ℝ)) = 10
      push_cast
      norm_num
    rw [harg]
    exact max_eq_right (le_trans (by norm_num) (Real.one_le_exp (by norm_num)))
  unfold aggregate_signals compute_signals balanced_weights
  dsimp only
  rw [hq, ha, hm, hcm, hr, hd]
  have hexp : (11 : ℝ) ≤ Real.exp 10 := by
    have h := Real.add_one_le_exp (10 : ℝ)
    linarith
  push_cast
  linarith

/-- Claim C1, amended: for a batch whose posts have all optional numeric fields
in `[0,1]` when present, counts non-negative, and — the amendment — no
parsed creation timestamp in the future, every scored post returned by
`rank_posts` under any strategy has `final_score` in `[0,1]`. -/
theorem claim_c1_final_scores_in_unit (strat : RankingStrategy) (now : ℚ)
    (prefs : Option UserPreferences) (posts : List Post)
    (h : ∀ p ∈ posts, post_in_range p = true ∧ created_ok now p = true) :
    ∀ sp ∈ rank_posts (mkRanker strat) now posts prefs,
      0 ≤ sp.final_score ∧ sp.final_score ≤ 1 := by
  intro sp hsp
  unfold rank_posts at hsp
  rw [List.mem_mergeSort] at hsp
  obtain ⟨p, st2, ss2, hp, hspEq⟩ := mem_score_posts _ _ _ _ _ _ _ hsp
  obtain ⟨hpr, hco⟩ := h p hp
  have hsig := compute_signals_in_unit (mkRanker strat).strategy now p st2 ss2 prefs hpr hco
  have hw := mkRanker_weights_ok strat
  have hagg := aggregate_signals_mem (mkRanker strat).weights _ hw.1 hw.2 hsig
  rw [hspEq]
  exact hagg

theorem claim_c1_witness :
    (∀ p ∈ [unit_post], post_in_range p = true ∧ created_ok 0 p = true) ∧
    (∀ sp ∈ rank_posts (mkRanker .balanced) 0 [unit_post] none,
      0 ≤ sp.final_score ∧ sp.final_score ≤ 1) := by
  have hh : ∀ p ∈ [unit_post], post_in_range p = true ∧ created_ok 0 p = true := by
    intro p hp
    simp only [List.mem_singleton] at hp
    subst hp
    constructor
    · norm_num [post_in_range, inUnitOpt, Bool.and_eq_true, decide_eq_true_eq, unit_post]
    · norm_num [created_ok, unit_post, decide_eq_true_eq]
  exact ⟨hh, claim_c1_final_scores_in_unit .balanced 0 none [unit_post] hh⟩

end RankingEngine
